import Mathlib

/-!
Verification of the retrieval-augmented document-search pipeline:
shallow embedding of the text chunker (`_chunk_text`), PDF ingestion
(`process_pdf`), vector upsert (`upsert_chunks`), reranking
(`RerankService.rerank`) and the multi-provider answer generation
(`LLMService.generate_answer`), together with theorems about the
chunk-length bounds, overlap application, round-trip reconstruction,
degradation contracts and provider-fallback order.

Recursive functions of the source are embedded with an explicit fuel
argument so that they stay structurally recursive and computable by the
kernel; for each of them a stability theorem shows that any fuel larger
than the input length computes the source's fixed point, so the fuel is
only a termination device and never changes the value.
-/

namespace DocSearch

/-- Python whitespace predicate used by `str.strip()` (ASCII subset relevant
to this code base: space, tab, newline, carriage return, vertical tab, form feed). -/
def pyIsSpace (c : Char) : Bool :=
  c = ' ' || c = '\t' || c = '\n' || c = '\r' || c = '\x0b' || c = '\x0c'

/-- Python `str.strip()` on a list of characters: drop whitespace from both ends. -/
def pyStrip (l : List Char) : List Char :=
  ((l.dropWhile pyIsSpace).reverse.dropWhile pyIsSpace).reverse

/-- Python `s[-n:]` for `n > 0` (the whole string when it is shorter than `n`):
the last `min n (length s)` characters. -/
def lastTake (n : Nat) (l : List Char) : List Char :=
  l.drop (l.length - n)

/-- Pair every element of a list with its predecessor (`none` for the head). -/
def withPrev {α : Type} (l : List α) : List (Option α × α) :=
  (none :: l.map some).zip l

/-- The final overlap pass of `_chunk_text` (ingestion.py lines 51-59): for every
chunk after the first, when `overlap > 0`, prepend the last `overlap` characters
of the *previous pre-pass chunk*, then `strip()` every chunk. -/
def overlapPass (ov : Nat) (res : List (List Char)) : List (List Char) :=
  (withPrev res).map fun pc =>
    match pc with
    | (some prev, c) => if 0 < ov then pyStrip (lastTake ov prev ++ c) else pyStrip c
    | (none, c) => pyStrip c

/-- Index of the first occurrence of `sep` in `l` (`none` if `sep` never occurs);
the scanning core of Python `str.split(sep)`. -/
def findOcc (sep : List Char) : List Char → Option Nat
  | [] => if sep.isPrefixOf ([] : List Char) then some 0 else none
  | c :: t => if sep.isPrefixOf (c :: t) then some 0 else (findOcc sep t).map (· + 1)

theorem findOcc_isPrefixOf {sep l : List Char} {i : Nat} (h : findOcc sep l = some i) :
    sep.isPrefixOf (l.drop i) = true := by
  induction l generalizing i with
  | nil =>
    simp only [findOcc] at h
    split at h
    next hpre => cases h; simpa using hpre
    next => exact absurd h (by simp)
  | cons c t ih =>
    simp only [findOcc] at h
    split at h
    next hpre => cases h; simpa using hpre
    next =>
      rcases Option.map_eq_some'.1 h with ⟨j, hj, rfl⟩
      simpa using ih hj

theorem findOcc_some_le {sep l : List Char} {i : Nat} (hsep : sep ≠ [])
    (h : findOcc sep l = some i) : i + sep.length ≤ l.length := by
  have hpre := findOcc_isPrefixOf h
  have hlen : sep.length ≤ (l.drop i).length :=
    ((List.isPrefixOf_iff_prefix).1 hpre).length_le
  have hslen : 1 ≤ sep.length := by
    cases sep with
    | nil => exact absurd rfl hsep
    | cons a b => simp
  simp only [List.length_drop] at hlen
  omega

/-- Fuel-indexed core of Python `text.split(sep)` for a non-empty separator:
split on every (leftmost, non-overlapping) occurrence of `sep`.  Python raises
on an empty separator; the separators used by `_chunk_text` are all non-empty,
so the `sep = []` branch is unreachable for this code base. -/
def splitSepF : Nat → List Char → List Char → List (List Char)
  | 0, _, l => [l]
  | fuel + 1, sep, l =>
    if sep = [] then [l]
    else
      match findOcc sep l with
      | none => [l]
      | some i => l.take i :: splitSepF fuel sep (l.drop (i + sep.length))

/-- Python `text.split(sep)`. -/
def splitSep (sep l : List Char) : List (List Char) :=
  splitSepF (l.length + 1) sep l

theorem splitSepF_stable {sep l : List Char} {fuel : Nat} (hf : l.length < fuel) :
    splitSepF fuel sep l = splitSep sep l := by
  induction fuel using Nat.strong_induction_on generalizing l with
  | _ fuel ih =>
    match fuel, hf with
    | fuel + 1, hf =>
      rw [splitSep]
      by_cases hs : sep = []
      · simp [splitSepF, hs]
      · have hslen : 1 ≤ sep.length := by
          cases sep with
          | nil => exact absurd rfl hs
          | cons a b => simp
        simp only [splitSepF, if_neg hs]
        match hocc : findOcc sep l with
        | none => rfl
        | some i =>
          have hle := findOcc_some_le hs hocc
          have hlt : (l.drop (i + sep.length)).length < l.length := by
            simp only [List.length_drop]; omega
          have h1 : splitSepF fuel sep (l.drop (i + sep.length))
              = splitSep sep (l.drop (i + sep.length)) :=
            ih fuel (Nat.lt_succ_self _) (by omega)
          have h2 : splitSepF l.length sep (l.drop (i + sep.length))
              = splitSep sep (l.drop (i + sep.length)) :=
            ih l.length hf (by simp only [List.length_drop]; omega)
          simp only [h1, h2]

/-- Unfolding equation for `splitSep`, hiding the fuel. -/
theorem splitSep_eq (sep l : List Char) :
    splitSep sep l =
      if sep = [] then [l]
      else
        match findOcc sep l with
        | none => [l]
        | some i => l.take i :: splitSep sep (l.drop (i + sep.length)) := by
  rw [splitSep]
  by_cases hs : sep = []
  · simp [splitSepF, hs]
  · have hslen : 1 ≤ sep.length := by
      cases sep with
      | nil => exact absurd rfl hs
      | cons a b => simp
    simp only [splitSepF, if_neg hs]
    match hocc : findOcc sep l with
    | none => rfl
    | some i =>
      have hle := findOcc_some_le hs hocc
      have := @splitSepF_stable sep (l.drop (i + sep.length)) l.length
        (by simp only [List.length_drop]; omega)
      simp only [this]

/-- The separator priority list of `_chunk_text`: paragraph break, newline,
sentence boundary, space. -/
def SEPS : List (List Char) := [['\n', '\n'], ['\n'], ['.', ' '], [' ']]

/-- The separator-selection loop of `_chunk_text` (lines 15-19): return the
first separator that splits the text into more than one part, together with
the parts; `none` when every separator leaves the text whole. -/
def trySeps : List (List Char) → List Char → Option (List Char × List (List Char))
  | [], _ => none
  | sep :: rest, text =>
    let parts := splitSep sep text
    if parts.length = 1 then trySeps rest text else some (sep, parts)

/-- The greedy accumulation loop of `_chunk_text` (lines 20-38), with the
running `current` chunk made explicit: append the next part (plus separator)
while the combined length stays within `chunk_size`, otherwise close the
current chunk; a lone oversized part becomes its own chunk. -/
def greedyGo (cs : Nat) (sep : List Char) (current : List Char) :
    List (List Char) → List (List Char)
  | [] => if current = [] then [] else [current]
  | part :: rest =>
    let candidate := if current = [] then part else current ++ sep ++ part
    if cs < candidate.length then
      if current = [] then part :: greedyGo cs sep [] rest
      else current :: greedyGo cs sep part rest
    else greedyGo cs sep candidate rest

/-- The greedy pass started with an empty `current` chunk. -/
def greedy (cs : Nat) (sep : List Char) (parts : List (List Char)) : List (List Char) :=
  greedyGo cs sep [] parts

/-- Fuel-indexed form of the no-separator fallback of `_chunk_text` (line 49):
fixed-width slices of `chunk_size` characters.  Python `range(0, n, 0)` raises
for `chunk_size = 0`; every caller in this code base uses `chunk_size = 500`,
so the `cs = 0` branch is unreachable. -/
def hardSliceF : Nat → Nat → List Char → List (List Char)
  | 0, _, l => [l]
  | fuel + 1, cs, l =>
    if l = [] then []
    else if cs = 0 then [l]
    else l.take cs :: hardSliceF fuel cs (l.drop cs)

/-- The no-separator fallback: `[text[i:i+chunk_size] for i in range(0, len(text), chunk_size)]`. -/
def hardSlice (cs : Nat) (l : List Char) : List (List Char) :=
  hardSliceF (l.length + 1) cs l

theorem hardSliceF_stable {cs : Nat} {l : List Char} {fuel : Nat} (hf : l.length < fuel) :
    hardSliceF fuel cs l = hardSlice cs l := by
  induction fuel using Nat.strong_induction_on generalizing l with
  | _ fuel ih =>
    match fuel, hf with
    | fuel + 1, hf =>
      rw [hardSlice]
      by_cases hl : l = []
      · simp [hardSliceF, hl]
      · by_cases hc : cs = 0
        · simp [hardSliceF, hl, hc]
        · have hlen : 0 < l.length := List.length_pos.2 hl
          have hlt : (l.drop cs).length < l.length := by
            simp only [List.length_drop]; omega
          simp only [hardSliceF, if_neg hl, if_neg hc]
          have h1 : hardSliceF fuel cs (l.drop cs) = hardSlice cs (l.drop cs) :=
            ih fuel (Nat.lt_succ_self _) (by omega)
          have h2 : hardSliceF l.length cs (l.drop cs) = hardSlice cs (l.drop cs) :=
            ih l.length (by omega) (by simp only [List.length_drop]; omega)
          simp only [h1, h2]

/-- Unfolding equation for `hardSlice`, hiding the fuel. -/
theorem hardSlice_eq (cs : Nat) (l : List Char) :
    hardSlice cs l =
      if l = [] then []
      else if cs = 0 then [l]
      else l.take cs :: hardSlice cs (l.drop cs) := by
  rw [hardSlice]
  by_cases hl : l = []
  · simp [hardSliceF, hl]
  · by_cases hc : cs = 0
    · simp [hardSliceF, hl, hc]
    · have hlen : 0 < l.length := List.length_pos.2 hl
      simp only [hardSliceF, if_neg hl, if_neg hc]
      have := @hardSliceF_stable cs (l.drop cs) l.length
        (by simp only [List.length_drop]; omega)
      simp only [this]

/-- Fuel-indexed embedding of `_chunk_text` (ingestion.py lines 9-59).  The
recursion of the source re-chunks, with the same parameters, every greedy chunk
still longer than `chunk_size`; `chunkTextF_stable` below shows that any fuel
larger than the text length computes the source's fixed point. -/
def chunkTextF : Nat → Nat → Nat → List Char → List (List Char)
  | 0, _, _, _ => []
  | fuel + 1, cs, ov, text =>
    let raw :=
      match trySeps SEPS text with
      | some (sep, parts) =>
        (greedy cs sep parts).flatMap fun c =>
          if cs < c.length then chunkTextF fuel cs ov c else [c]
      | none => hardSlice cs text
    overlapPass ov raw

/-- The pre-overlap chunk list `result` of `_chunk_text` (lines 39-49): greedy
chunks with every oversized chunk replaced by its recursive re-chunking (which,
in the source, includes the recursive call's own overlap pass). -/
def rawChunks (cs ov : Nat) (text : List Char) : List (List Char) :=
  match trySeps SEPS text with
  | some (sep, parts) =>
    (greedy cs sep parts).flatMap fun c =>
      if cs < c.length then chunkTextF (c.length + 1) cs ov c else [c]
  | none => hardSlice cs text

/-- `_chunk_text(text, chunk_size, overlap)`: the pre-overlap list followed by
the final overlap-and-strip pass. -/
def chunkText (cs ov : Nat) (text : List Char) : List (List Char) :=
  overlapPass ov (rawChunks cs ov text)

theorem flatMap_congr {α β : Type} {l : List α} {f g : α → List β}
    (h : ∀ a ∈ l, f a = g a) : l.flatMap f = l.flatMap g := by
  induction l with
  | nil => rfl
  | cons a t ih =>
    simp only [List.flatMap_cons, h a (List.mem_cons_self a t)]
    rw [ih fun b hb => h b (List.mem_cons_of_mem a hb)]

/-- Unfolding of the greedy loop on a cons cell, with the `candidate` binding
expanded. -/
theorem greedyGo_cons (cs : Nat) (sep cur part : List Char) (rest : List (List Char)) :
    greedyGo cs sep cur (part :: rest) =
      if cs < (if cur = [] then part else cur ++ sep ++ part).length then
        if cur = [] then part :: greedyGo cs sep [] rest
        else cur :: greedyGo cs sep part rest
      else greedyGo cs sep (if cur = [] then part else cur ++ sep ++ part) rest := rfl

/-- Every chunk produced by the greedy loop is within `chunk_size`, or is the
running chunk it started from, or is a single part of the split. -/
theorem greedyGo_mem {cs : Nat} {sep cur c : List Char} {parts : List (List Char)}
    (h : c ∈ greedyGo cs sep cur parts) : c.length ≤ cs ∨ c = cur ∨ c ∈ parts := by
  induction parts generalizing cur with
  | nil =>
    simp only [greedyGo] at h
    split at h
    · exact absurd h (List.not_mem_nil c)
    · rw [List.mem_singleton] at h
      exact Or.inr (Or.inl h)
  | cons part rest ih =>
    rw [greedyGo_cons] at h
    by_cases hcur : cur = []
    · subst hcur
      simp only [if_pos rfl, if_true, eq_self_iff_true] at h
      by_cases hbig : cs < part.length
      · rw [if_pos hbig] at h
        rcases List.mem_cons.1 h with rfl | h2
        · exact Or.inr (Or.inr (List.mem_cons_self _ _))
        · rcases ih h2 with h3 | h3 | h3
          · exact Or.inl h3
          · subst h3; exact Or.inl (Nat.zero_le cs)
          · exact Or.inr (Or.inr (List.mem_cons_of_mem _ h3))
      · rw [if_neg hbig] at h
        rcases ih h with h3 | h3 | h3
        · exact Or.inl h3
        · subst h3; exact Or.inl (Nat.le_of_not_lt hbig)
        · exact Or.inr (Or.inr (List.mem_cons_of_mem _ h3))
    · simp only [if_neg hcur] at h
      by_cases hbig : cs < (cur ++ sep ++ part).length
      · rw [if_pos hbig] at h
        rcases List.mem_cons.1 h with rfl | h2
        · exact Or.inr (Or.inl rfl)
        · rcases ih h2 with h3 | h3 | h3
          · exact Or.inl h3
          · subst h3; exact Or.inr (Or.inr (List.mem_cons_self _ _))
          · exact Or.inr (Or.inr (List.mem_cons_of_mem _ h3))
      · rw [if_neg hbig] at h
        rcases ih h with h3 | h3 | h3
        · exact Or.inl h3
        · subst h3; exact Or.inl (Nat.le_of_not_lt hbig)
        · exact Or.inr (Or.inr (List.mem_cons_of_mem _ h3))

theorem splitSep_ne_nil (sep l : List Char) : splitSep sep l ≠ [] := by
  rw [splitSep_eq]
  split
  · simp
  · match h : findOcc sep l with
    | none => simp
    | some i => simp

theorem mem_splitSep_length_aux :
    ∀ (n : Nat) {sep l p : List Char}, l.length ≤ n → p ∈ splitSep sep l →
      p.length ≤ l.length := by
  intro n
  induction n with
  | zero =>
    intro sep l p hn h
    rw [splitSep_eq] at h
    split at h
    · rw [List.mem_singleton] at h; subst h; exact le_rfl
    next hs =>
      have hslen : 1 ≤ sep.length := by
        cases sep with
        | nil => exact absurd rfl hs
        | cons a b => simp
      revert h
      match hocc : findOcc sep l with
      | none =>
        intro h
        rw [List.mem_singleton] at h; subst h; exact le_rfl
      | some i =>
        intro h
        have hle := findOcc_some_le hs hocc
        omega
  | succ m ih =>
    intro sep l p hn h
    rw [splitSep_eq] at h
    split at h
    · rw [List.mem_singleton] at h; subst h; exact le_rfl
    next hs =>
      have hslen : 1 ≤ sep.length := by
        cases sep with
        | nil => exact absurd rfl hs
        | cons a b => simp
      revert h
      match hocc : findOcc sep l with
      | none =>
        intro h
        rw [List.mem_singleton] at h; subst h; exact le_rfl
      | some i =>
        intro h
        have hle := findOcc_some_le hs hocc
        rcases List.mem_cons.1 h with rfl | h
        · simp only [List.length_take]; omega
        · have := ih (l := l.drop (i + sep.length))
            (by simp only [List.length_drop]; omega) h
          simp only [List.length_drop] at this
          omega

/-- Every part of a split is no longer than the split text. -/
theorem mem_splitSep_length {sep l p : List Char} (h : p ∈ splitSep sep l) :
    p.length ≤ l.length :=
  mem_splitSep_length_aux l.length le_rfl h

/-- When the separator actually occurs, every part of the split is strictly
shorter than the split text. -/
theorem mem_splitSep_lt {sep l p : List Char} (hs : sep ≠ [])
    (hocc : ∃ i, findOcc sep l = some i) (h : p ∈ splitSep sep l) :
    p.length < l.length := by
  have hslen : 1 ≤ sep.length := by
    cases sep with
    | nil => exact absurd rfl hs
    | cons a b => simp
  rcases hocc with ⟨i, hocc⟩
  have hle := findOcc_some_le hs hocc
  rw [splitSep_eq, if_neg hs, hocc] at h
  rcases List.mem_cons.1 h with rfl | h
  · simp only [List.length_take]; omega
  · have := mem_splitSep_length h
    simp only [List.length_drop] at this
    omega

/-- A split with more than one part comes from an actual occurrence of a
non-empty separator. -/
theorem splitSep_length_ne_one {sep l : List Char}
    (h : (splitSep sep l).length ≠ 1) :
    sep ≠ [] ∧ ∃ i, findOcc sep l = some i := by
  rw [splitSep_eq] at h
  split at h
  · simp at h
  next hs =>
    refine ⟨hs, ?_⟩
    revert h
    match hocc : findOcc sep l with
    | none => intro h; simp at h
    | some i => intro _; exact ⟨i, rfl⟩

/-- Characterization of the separator-selection loop: the chosen separator is
one of the candidates, the parts are its split, and the split is proper. -/
theorem trySeps_some {seps : List (List Char)} {text sep : List Char}
    {parts : List (List Char)} (h : trySeps seps text = some (sep, parts)) :
    sep ∈ seps ∧ parts = splitSep sep text ∧ (splitSep sep text).length ≠ 1 := by
  induction seps with
  | nil => exact absurd h (by simp [trySeps])
  | cons s rest ih =>
    simp only [trySeps] at h
    split at h
    · rcases ih h with ⟨h1, h2, h3⟩
      exact ⟨List.mem_cons_of_mem _ h1, h2, h3⟩
    next hne =>
      simp only [Option.some.injEq, Prod.mk.injEq] at h
      obtain ⟨rfl, rfl⟩ := h
      exact ⟨List.mem_cons_self _ _, rfl, hne⟩

/-- Every part fed to the greedy loop is strictly shorter than the text: the
recursion of `_chunk_text` always descends to strictly shorter strings. -/
theorem trySeps_some_lt {text sep : List Char} {parts : List (List Char)}
    (h : trySeps SEPS text = some (sep, parts)) :
    ∀ p ∈ parts, p.length < text.length := by
  rcases trySeps_some h with ⟨_, rfl, hne⟩
  rcases splitSep_length_ne_one hne with ⟨hs, hocc⟩
  exact fun p hp => mem_splitSep_lt hs hocc hp

/-- One-step unfolding of the fuel-indexed chunker on positive fuel. -/
theorem chunkTextF_succ (fuel cs ov : Nat) (text : List Char) :
    chunkTextF (fuel + 1) cs ov text =
      overlapPass ov
        (match trySeps SEPS text with
          | some (sep, parts) =>
            (greedy cs sep parts).flatMap fun c =>
              if cs < c.length then chunkTextF fuel cs ov c else [c]
          | none => hardSlice cs text) := rfl

theorem chunkText_def (cs ov : Nat) (text : List Char) :
    chunkText cs ov text =
      overlapPass ov
        (match trySeps SEPS text with
          | some (sep, parts) =>
            (greedy cs sep parts).flatMap fun c =>
              if cs < c.length then chunkTextF (c.length + 1) cs ov c else [c]
          | none => hardSlice cs text) := rfl

/-- Stability of the fuel-indexed chunker: any fuel larger than the text length
computes the same value, i.e. `_chunk_text` terminates and `chunkText` is its
fixed point. -/
theorem chunkTextF_stable_aux (cs ov : Nat) :
    ∀ (n : Nat) (text : List Char), text.length ≤ n →
      ∀ fuel, text.length < fuel → chunkTextF fuel cs ov text = chunkText cs ov text := by
  intro n
  induction n with
  | zero =>
    intro text hn fuel hf
    match fuel, hf with
    | fuel + 1, _ =>
      rw [chunkTextF_succ, chunkText_def]
      match htry : trySeps SEPS text with
      | some (sep, parts) =>
        have hlt := trySeps_some_lt htry
        congr 1
        apply flatMap_congr
        intro c hc
        by_cases hbig : cs < c.length
        · rcases greedyGo_mem hc with h1 | h1 | h1
          · omega
          · subst h1; simp at hbig
          · have := hlt c h1; omega
        · simp [hbig]
      | none => rfl
  | succ m ih =>
    intro text hn fuel hf
    match fuel, hf with
    | fuel + 1, _ =>
      rw [chunkTextF_succ, chunkText_def]
      match htry : trySeps SEPS text with
      | some (sep, parts) =>
        have hlt := trySeps_some_lt htry
        congr 1
        apply flatMap_congr
        intro c hc
        by_cases hbig : cs < c.length
        · simp only [if_pos hbig]
          rcases greedyGo_mem hc with h1 | h1 | h1
          · omega
          · subst h1; simp at hbig
          · have hcl : c.length < text.length := hlt c h1
            have e1 : chunkTextF fuel cs ov c = chunkText cs ov c :=
              ih c (by omega) fuel (by omega)
            have e2 : chunkTextF (c.length + 1) cs ov c = chunkText cs ov c :=
              ih c (by omega) (c.length + 1) (by omega)
            rw [e1, e2]
        · simp [hbig]
      | none => rfl

theorem chunkTextF_stable {cs ov : Nat} {text : List Char} {fuel : Nat}
    (hf : text.length < fuel) : chunkTextF fuel cs ov text = chunkText cs ov text :=
  chunkTextF_stable_aux cs ov text.length text le_rfl fuel hf

/-- Unfolding equation for `chunkText`, hiding the fuel: the value of
`_chunk_text` is the overlap pass applied to the greedy chunks, with every
oversized chunk replaced by its own (full) recursive `_chunk_text` value. -/
theorem chunkText_eq (cs ov : Nat) (text : List Char) :
    chunkText cs ov text =
      overlapPass ov
        (match trySeps SEPS text with
          | some (sep, parts) =>
            (greedy cs sep parts).flatMap fun c =>
              if cs < c.length then chunkText cs ov c else [c]
          | none => hardSlice cs text) := by
  rw [chunkText_def]
  match htry : trySeps SEPS text with
  | some (sep, parts) =>
    congr 1
    apply flatMap_congr
    intro c hc
    by_cases hbig : cs < c.length
    · simp only [if_pos hbig]
      exact chunkTextF_stable (Nat.lt_succ_self _)
    · simp [hbig]
  | none => rfl

theorem pyStrip_length_le (l : List Char) : (pyStrip l).length ≤ l.length := by
  have h1 : ∀ (m : List Char), (m.dropWhile pyIsSpace).length ≤ m.length := fun m =>
    (List.dropWhile_sublist pyIsSpace).length_le
  calc (pyStrip l).length
      = ((l.dropWhile pyIsSpace).reverse.dropWhile pyIsSpace).length := by
        simp [pyStrip]
    _ ≤ (l.dropWhile pyIsSpace).reverse.length := h1 _
    _ = (l.dropWhile pyIsSpace).length := by simp
    _ ≤ l.length := h1 l

theorem lastTake_length_le (n : Nat) (l : List Char) : (lastTake n l).length ≤ n := by
  simp only [lastTake, List.length_drop]
  omega

theorem mem_overlapPass {ov : Nat} {res : List (List Char)} {c : List Char}
    (h : c ∈ overlapPass ov res) : ∃ r ∈ res, c.length ≤ ov + r.length := by
  rcases List.mem_map.1 h with ⟨pc, hpc, rfl⟩
  rcases pc with ⟨p, r⟩
  have hr : r ∈ res := (List.of_mem_zip hpc).2
  refine ⟨r, hr, ?_⟩
  match p with
  | some prev =>
    show (if 0 < ov then pyStrip (lastTake ov prev ++ r) else pyStrip r).length
      ≤ ov + r.length
    by_cases hov : 0 < ov
    · simp only [if_pos hov]
      calc (pyStrip (lastTake ov prev ++ r)).length
          ≤ (lastTake ov prev ++ r).length := pyStrip_length_le _
        _ = (lastTake ov prev).length + r.length := List.length_append _ _
        _ ≤ ov + r.length := by have := lastTake_length_le ov prev; omega
    · simp only [if_neg hov]
      have := pyStrip_length_le r
      omega
  | none =>
    show (pyStrip r).length ≤ ov + r.length
    have := pyStrip_length_le r
    omega

theorem overlapPass_bound {ov B : Nat} {res : List (List Char)}
    (hB : ∀ r ∈ res, r.length ≤ B) :
    ∀ c ∈ overlapPass ov res, c.length ≤ B + ov := by
  intro c hc
  rcases mem_overlapPass hc with ⟨r, hr, hle⟩
  have := hB r hr
  omega

theorem hardSlice_mem_le_aux :
    ∀ (n cs : Nat) (l : List Char), l.length ≤ n → cs ≠ 0 →
      ∀ c ∈ hardSlice cs l, c.length ≤ cs := by
  intro n
  induction n with
  | zero =>
    intro cs l hn hcs c hc
    rw [hardSlice_eq] at hc
    have hl : l = [] := List.length_eq_zero.1 (Nat.le_zero.1 hn)
    rw [if_pos hl] at hc
    exact absurd hc (List.not_mem_nil c)
  | succ m ih =>
    intro cs l hn hcs c hc
    rw [hardSlice_eq] at hc
    by_cases hl : l = []
    · rw [if_pos hl] at hc
      exact absurd hc (List.not_mem_nil c)
    · rw [if_neg hl, if_neg hcs] at hc
      rcases List.mem_cons.1 hc with rfl | hc
      · simp only [List.length_take]; omega
      · have hlen : 0 < l.length := List.length_pos.2 hl
        exact ih cs (l.drop cs)
          (by simp only [List.length_drop]; omega) hcs c hc

/-- Every fallback slice is within `chunk_size`. -/
theorem hardSlice_mem_le {cs : Nat} {l c : List Char} (hcs : cs ≠ 0)
    (hc : c ∈ hardSlice cs l) : c.length ≤ cs :=
  hardSlice_mem_le_aux l.length cs l le_rfl hcs c hc

/-- `findOcc` returns the index of a genuine occurrence: the text decomposes
around the separator there. -/
theorem findOcc_decomp {sep l : List Char} {i : Nat} (h : findOcc sep l = some i) :
    ∃ b, l = l.take i ++ sep ++ b := by
  have hpre := findOcc_isPrefixOf h
  rcases (List.isPrefixOf_iff_prefix).1 hpre with ⟨b, hb⟩
  exact ⟨b, by rw [List.append_assoc, hb, List.take_append_drop]⟩

/-- When `sep` is a prefix, `findOcc` returns index `0`. -/
theorem findOcc_here {sep l : List Char} (h : sep.isPrefixOf l = true) :
    findOcc sep l = some 0 := by
  cases l with
  | nil => simp [findOcc, h]
  | cons c t => simp [findOcc, h]

/-- An actual occurrence makes `findOcc` succeed. -/
theorem findOcc_ne_none_of_decomp {sep : List Char} :
    ∀ (a b : List Char), findOcc sep (a ++ sep ++ b) ≠ none := by
  intro a
  induction a with
  | nil =>
    intro b
    have hpre : sep.isPrefixOf (sep ++ b) = true :=
      (List.isPrefixOf_iff_prefix).2 ⟨b, rfl⟩
    simp [findOcc_here hpre]
  | cons x a' ih =>
    intro b
    simp only [List.cons_append, findOcc]
    split
    · simp
    · intro hcon
      rcases Option.map_eq_none'.1 hcon with hnone
      exact ih b hnone

/-- `findOcc` finds the first occurrence: no occurrence starts earlier. -/
theorem findOcc_minimal {sep l : List Char} {i : Nat} (h : findOcc sep l = some i) :
    ∀ a b, l = a ++ sep ++ b → i ≤ a.length := by
  induction l generalizing i with
  | nil =>
    intro a b hab
    simp only [findOcc] at h
    split at h
    · cases h; omega
    · exact absurd h (by simp)
  | cons c t ih =>
    intro a b hab
    simp only [findOcc] at h
    split at h
    · cases h; omega
    next hpre =>
      rcases Option.map_eq_some'.1 h with ⟨j, hj, rfl⟩
      match a, hab with
      | [], hab =>
        exact absurd ((List.isPrefixOf_iff_prefix).2 ⟨b, by simpa using hab.symm⟩) hpre
      | x :: a', hab =>
        have ht : t = a' ++ sep ++ b := by
          simpa using congrArg (List.drop 1) hab
        have := ih hj a' b ht
        simpa using Nat.succ_le_succ this

/-- If the separator does not occur in a string, it does not occur in any
infix of it. -/
theorem findOcc_none_of_infix {sep u l : List Char} (hinf : u <:+: l)
    (h : findOcc sep l = none) : findOcc sep u = none := by
  cases hu : findOcc sep u with
  | none => rfl
  | some i =>
    exfalso
    rcases findOcc_decomp hu with ⟨b, hb⟩
    rcases hinf with ⟨s, t, hst⟩
    have hl2 : l = s ++ (u.take i ++ sep ++ b) ++ t := by
      rw [← hb]; exact hst.symm
    have hl3 : l = (s ++ u.take i) ++ sep ++ (b ++ t) := by
      rw [hl2]; simp [List.append_assoc]
    exact findOcc_ne_none_of_decomp (s ++ u.take i) (b ++ t) (hl3 ▸ h)

/-- Every part of a split is an infix of the split text. -/
theorem mem_splitSep_infix_aux :
    ∀ (n : Nat) {sep l p : List Char}, l.length ≤ n → p ∈ splitSep sep l →
      p <:+: l := by
  intro n
  induction n with
  | zero =>
    intro sep l p hn h
    have hl : l = [] := List.length_eq_zero.1 (Nat.le_zero.1 hn)
    subst hl
    have := mem_splitSep_length h
    have hp : p = [] := List.length_eq_zero.1 (by simpa using this)
    subst hp
    exact List.nil_infix
  | succ m ih =>
    intro sep l p hn h
    rw [splitSep_eq] at h
    split at h
    · rw [List.mem_singleton] at h; subst h; exact List.infix_refl _
    next hs =>
      have hslen : 1 ≤ sep.length := by
        cases sep with
        | nil => exact absurd rfl hs
        | cons a b => simp
      revert h
      match hocc : findOcc sep l with
      | none =>
        intro h
        rw [List.mem_singleton] at h; subst h; exact List.infix_refl _
      | some i =>
        intro h
        have hle := findOcc_some_le hs hocc
        rcases List.mem_cons.1 h with rfl | h
        · exact (List.take_prefix i l).isInfix
        · have htail : p <:+: l.drop (i + sep.length) :=
            ih (by simp only [List.length_drop]; omega) h
          exact htail.trans (List.drop_suffix _ _).isInfix

theorem mem_splitSep_infix {sep l p : List Char} (h : p ∈ splitSep sep l) :
    p <:+: l :=
  mem_splitSep_infix_aux l.length le_rfl h

/-- Parts of a split never contain the separator (they are the maximal
separator-free pieces). -/
theorem mem_splitSep_findOcc_none_aux :
    ∀ (n : Nat) {sep l p : List Char}, l.length ≤ n → sep ≠ [] →
      p ∈ splitSep sep l → findOcc sep p = none := by
  intro n
  induction n with
  | zero =>
    intro sep l p hn hs h
    have hl : l = [] := List.length_eq_zero.1 (Nat.le_zero.1 hn)
    subst hl
    have := mem_splitSep_length h
    have hp : p = [] := List.length_eq_zero.1 (by simpa using this)
    subst hp
    cases hocc : findOcc sep ([] : List Char) with
    | none => rfl
    | some i =>
      exfalso
      have := findOcc_some_le hs hocc
      have hslen : 1 ≤ sep.length := by
        cases sep with
        | nil => exact absurd rfl hs
        | cons a b => simp
      simp only [List.length_nil] at this
      omega
  | succ m ih =>
    intro sep l p hn hs h
    rw [splitSep_eq, if_neg hs] at h
    revert h
    match hocc : findOcc sep l with
    | none =>
      intro h
      rw [List.mem_singleton] at h; subst h; exact hocc
    | some i =>
      intro h
      have hslen : 1 ≤ sep.length := by
        cases sep with
        | nil => exact absurd rfl hs
        | cons a b => simp
      have hle := findOcc_some_le hs hocc
      rcases List.mem_cons.1 h with rfl | h
      · cases hp : findOcc sep (l.take i) with
        | none => rfl
        | some j =>
          exfalso
          rcases findOcc_decomp hp with ⟨b, hb⟩
          obtain ⟨a, ha⟩ : ∃ a, (l.take i).take j = a := ⟨_, rfl⟩
          rw [ha] at hb
          have hdecomp : l = a ++ sep ++ (b ++ l.drop i) := by
            conv_lhs => rw [← List.take_append_drop i l]
            rw [hb]
            simp [List.append_assoc]
          have hmin : i ≤ a.length := findOcc_minimal hocc _ _ hdecomp
          have h1 : (l.take i).length = a.length + sep.length + b.length := by
            rw [hb]; simp only [List.length_append]
          have h2 : (l.take i).length ≤ i := List.length_take_le _ _
          omega
      · exact ih (by simp only [List.length_drop]; omega) hs h

theorem mem_splitSep_findOcc_none {sep l p : List Char} (hs : sep ≠ [])
    (h : p ∈ splitSep sep l) : findOcc sep p = none :=
  mem_splitSep_findOcc_none_aux l.length le_rfl hs h

/-- A proper split (more than one part) certifies an occurrence; conversely a
trivial split of a non-empty separator certifies no occurrence. -/
theorem splitSep_length_one {sep l : List Char} (hs : sep ≠ [])
    (h : (splitSep sep l).length = 1) : findOcc sep l = none := by
  rw [splitSep_eq, if_neg hs] at h
  revert h
  match hocc : findOcc sep l with
  | none => intro _; rfl
  | some i =>
    intro h
    exfalso
    have := splitSep_ne_nil sep (l.drop (i + sep.length))
    simp only [List.length_cons] at h
    have : 0 < (splitSep sep (l.drop (i + sep.length))).length :=
      List.length_pos.2 this
    omega

/-- Full characterization of the separator-selection loop: the candidates
before the chosen separator were skipped because they left the text whole. -/
theorem trySeps_some_decomp {seps : List (List Char)} {text sep : List Char}
    {parts : List (List Char)} (h : trySeps seps text = some (sep, parts)) :
    ∃ pre post, seps = pre ++ sep :: post ∧
      (∀ s ∈ pre, (splitSep s text).length = 1) ∧
      parts = splitSep sep text ∧ (splitSep sep text).length ≠ 1 := by
  induction seps with
  | nil => exact absurd h (by simp [trySeps])
  | cons s rest ih =>
    simp only [trySeps] at h
    split at h
    next hone =>
      rcases ih h with ⟨pre, post, h1, h2, h3, h4⟩
      refine ⟨s :: pre, post, by rw [h1]; rfl, ?_, h3, h4⟩
      intro u hu
      rcases List.mem_cons.1 hu with rfl | hu
      · exact hone
      · exact h2 u hu
    next hone =>
      simp only [Option.some.injEq, Prod.mk.injEq] at h
      obtain ⟨rfl, rfl⟩ := h
      exact ⟨[], rest, rfl, by simp, rfl, hone⟩

theorem SEPS_ne_nil : ∀ s ∈ SEPS, s ≠ [] := by decide

/-- Core bound: once the separators in `pre` are known to be absent from the
text, every chunk of `_chunk_text` is within `chunk_size` plus one overlap per
remaining recursion level (the levels that can still choose a separator, plus
the final overlap pass). -/
theorem chunk_bound_aux (cs ov : Nat) (hcs : 1 ≤ cs) :
    ∀ (n : Nat) (text : List Char), text.length ≤ n →
      ∀ (pre suffix : List (List Char)), SEPS = pre ++ suffix →
        (∀ s ∈ pre, findOcc s text = none) →
        ∀ c ∈ chunkText cs ov text, c.length ≤ cs + (suffix.length + 1) * ov := by
  intro n
  induction n with
  | zero =>
    intro text hn pre suffix hseps habs c hc
    rw [chunkText_eq] at hc
    revert hc
    match htry : trySeps SEPS text with
    | some (sep, parts) =>
      intro hc
      have hraws : ∀ r ∈ (greedy cs sep parts).flatMap
          (fun ch => if cs < ch.length then chunkText cs ov ch else [ch]),
          r.length ≤ cs + suffix.length * ov := by
        intro r hr
        rcases List.mem_flatMap.1 hr with ⟨ch, hch, hrch⟩
        by_cases hbig : cs < ch.length
        · exfalso
          rcases greedyGo_mem hch with h1 | h1 | h1
          · omega
          · subst h1; simp at hbig
          · have := trySeps_some_lt htry ch h1; omega
        · rw [if_neg hbig] at hrch
          rw [List.mem_singleton] at hrch
          rw [hrch]
          exact le_trans (Nat.le_of_not_lt hbig) (Nat.le_add_right _ _)
      calc c.length ≤ (cs + suffix.length * ov) + ov := overlapPass_bound hraws c hc
        _ = cs + (suffix.length + 1) * ov := by ring
    | none =>
      intro hc
      have hraws : ∀ r ∈ hardSlice cs text, r.length ≤ cs := by
        intro r hr
        exact hardSlice_mem_le (by omega) hr
      calc c.length ≤ cs + ov := overlapPass_bound hraws c hc
        _ ≤ cs + (suffix.length + 1) * ov := by
          refine Nat.add_le_add_left ?_ cs
          calc ov = 1 * ov := (one_mul ov).symm
            _ ≤ (suffix.length + 1) * ov := Nat.mul_le_mul_right ov (by omega)
  | succ m ih =>
    intro text hn pre suffix hseps habs c hc
    rw [chunkText_eq] at hc
    revert hc
    match htry : trySeps SEPS text with
    | none =>
      intro hc
      have hraws : ∀ r ∈ hardSlice cs text, r.length ≤ cs := by
        intro r hr
        exact hardSlice_mem_le (by omega) hr
      calc c.length ≤ cs + ov := overlapPass_bound hraws c hc
        _ ≤ cs + (suffix.length + 1) * ov := by
          refine Nat.add_le_add_left ?_ cs
          calc ov = 1 * ov := (one_mul ov).symm
            _ ≤ (suffix.length + 1) * ov := Nat.mul_le_mul_right ov (by omega)
    | some (sep, parts) =>
      intro hc
      have hraws : ∀ r ∈ (greedy cs sep parts).flatMap
          (fun ch => if cs < ch.length then chunkText cs ov ch else [ch]),
          r.length ≤ cs + suffix.length * ov := by
        intro r hr
        rcases List.mem_flatMap.1 hr with ⟨ch, hch, hrch⟩
        by_cases hbig : cs < ch.length
        · rw [if_pos hbig] at hrch
          -- the oversized chunk is a single part of the split
          have hchparts : ch ∈ parts := by
            rcases greedyGo_mem hch with h1 | h1 | h1
            · omega
            · subst h1; simp at hbig
            · exact h1
          rcases trySeps_some_decomp htry with ⟨pre', post, hdec, hskip, hparts, hne⟩
          -- the skipped separators (and all of SEPS) are non-empty
          have hpre'seps : ∀ s ∈ pre', s ∈ SEPS := by
            intro s hs; rw [hdec]; exact List.mem_append_left _ hs
          have hsepSEPS : sep ∈ SEPS := by
            rw [hdec]; exact List.mem_append_right _ (List.mem_cons_self _ _)
          have hsne : sep ≠ [] := SEPS_ne_nil sep hsepSEPS
          -- `pre` is an initial segment of `pre'`
          have hpre1 : pre <+: SEPS := ⟨suffix, hseps.symm⟩
          have hpre2 : pre' <+: SEPS := ⟨sep :: post, hdec.symm⟩
          have hmid : ∃ mid, pre' = pre ++ mid := by
            rcases List.prefix_or_prefix_of_prefix hpre1 hpre2 with hp | hp
            · rcases hp with ⟨mid, hmid⟩
              exact ⟨mid, hmid.symm⟩
            · rcases hp with ⟨rest, hrest⟩
              match rest, hrest with
              | [], hrest =>
                refine ⟨[], ?_⟩
                rw [List.append_nil] at hrest
                rw [hrest]
                simp
              | x :: rest', hrest =>
                exfalso
                have hx : x :: rest' ++ suffix = sep :: post := by
                  apply @List.append_cancel_left _ pre' _ _
                  rw [← List.append_assoc, hrest, ← hseps, hdec]
                have hxsep : x = sep := by
                  have := congrArg (fun l => l.headI) hx
                  simpa using this
                subst hxsep
                have hxpre : x ∈ pre := by
                  rw [← hrest]; exact List.mem_append_right _ (List.mem_cons_self _ _)
                have := habs x hxpre
                have hone : (splitSep x text).length = 1 := by
                  rw [splitSep_eq, if_neg hsne, this]
                  rfl
                exact hne hone
          rcases hmid with ⟨mid, hmid⟩
          -- the remaining-suffix budget strictly decreases
          have hsuffix : suffix = mid ++ sep :: post := by
            apply @List.append_cancel_left _ pre _ _
            rw [← hseps, ← List.append_assoc, ← hmid, hdec]
          have hlen : post.length + 1 ≤ suffix.length := by
            rw [hsuffix]; simp [List.length_append]
          -- every separator up to and including `sep` is absent from the part
          have hinf : ch <:+: text := mem_splitSep_infix (hparts ▸ hchparts)
          have habs' : ∀ s ∈ pre' ++ [sep], findOcc s ch = none := by
            intro s hs
            rcases List.mem_append.1 hs with hs | hs
            · have hone : (splitSep s text).length = 1 := hskip s hs
              have hnone : findOcc s text = none :=
                splitSep_length_one (SEPS_ne_nil s (hpre'seps s hs)) hone
              exact findOcc_none_of_infix hinf hnone
            · rw [List.mem_singleton] at hs
              subst hs
              exact mem_splitSep_findOcc_none hsne (hparts ▸ hchparts)
          have hchlt : ch.length < text.length := trySeps_some_lt htry ch hchparts
          have hSEPS' : SEPS = (pre' ++ [sep]) ++ post := by
            rw [hdec]; simp
          have hsub := ih ch (by omega) (pre' ++ [sep]) post hSEPS' habs' r hrch
          have hmono : (post.length + 1) * ov ≤ suffix.length * ov :=
            Nat.mul_le_mul_right ov hlen
          calc r.length ≤ cs + (post.length + 1) * ov := hsub
            _ ≤ cs + suffix.length * ov := Nat.add_le_add_left hmono cs
        · rw [if_neg hbig] at hrch
          rw [List.mem_singleton] at hrch
          rw [hrch]
          exact le_trans (Nat.le_of_not_lt hbig) (Nat.le_add_right _ _)
      calc c.length ≤ (cs + suffix.length * ov) + ov := overlapPass_bound hraws c hc
        _ = cs + (suffix.length + 1) * ov := by ring


/-- The top-level greedy chunk list of `_chunk_text` (the `chunks` variable of
the source after lines 20-38), before recursive re-chunking: empty when the
fixed-width fallback is taken. -/
def topChunks (cs : Nat) (text : List Char) : List (List Char) :=
  match trySeps SEPS text with
  | some (sep, parts) => greedy cs sep parts
  | none => []

/-- Spec-modelled comparison definition (from the spec's words, for claim C3):
the pre-overlap chunk list as the spec describes it, where recursive
re-chunking of an oversized chunk contributes raw sub-chunks only, without the
recursive call's own overlap pass. -/
def rawOnceF : Nat → Nat → List Char → List (List Char)
  | 0, _, _ => []
  | fuel + 1, cs, text =>
    match trySeps SEPS text with
    | some (sep, parts) =>
      (greedy cs sep parts).flatMap fun c =>
        if cs < c.length then rawOnceF fuel cs c else [c]
    | none => hardSlice cs text

theorem rawOnceF_succ (fuel cs : Nat) (text : List Char) :
    rawOnceF (fuel + 1) cs text =
      match trySeps SEPS text with
      | some (sep, parts) =>
        (greedy cs sep parts).flatMap fun c =>
          if cs < c.length then rawOnceF fuel cs c else [c]
      | none => hardSlice cs text := rfl

/-- Spec-modelled comparison definition (from the spec's words, for claim C3):
`_chunk_text` as the spec describes it — overlap applied exactly once, to the
top-level finalized chunk list only. -/
def chunkTextOnce (cs ov : Nat) (text : List Char) : List (List Char) :=
  overlapPass ov (rawOnceF (text.length + 1) cs text)

/-- C9: for every input string, chunk_size ≥ 1 and overlap ≥ 0, `_chunk_text`
terminates: the fuel-indexed embedding is independent of the fuel once the fuel
exceeds the text length (so the recursion reaches a fixed point), and every
recursive call — made on a greedy chunk longer than `chunk_size`, which is
always a single part of a proper split by a non-empty separator — operates on a
strictly shorter string; the no-separator fallback is plain fixed-width
slicing. -/
theorem chunkText_terminates (cs ov : Nat) (text : List Char) (fuel : Nat)
    (_hcs : 1 ≤ cs) (hfuel : text.length < fuel) :
    chunkTextF fuel cs ov text = chunkText cs ov text ∧
    (∀ sep parts, trySeps SEPS text = some (sep, parts) →
      sep ≠ [] ∧ 2 ≤ parts.length ∧
      ∀ c ∈ greedy cs sep parts, cs < c.length → c.length < text.length) := by
  refine ⟨chunkTextF_stable hfuel, ?_⟩
  intro sep parts htry
  rcases trySeps_some htry with ⟨hmem, rfl, hne⟩
  rcases splitSep_length_ne_one hne with ⟨hs, hocc⟩
  have hpos : 0 < (splitSep sep text).length :=
    List.length_pos.2 (splitSep_ne_nil sep text)
  refine ⟨hs, by omega, ?_⟩
  intro c hc hbig
  rcases greedyGo_mem hc with h1 | h1 | h1
  · omega
  · subst h1; simp at hbig
  · exact mem_splitSep_lt hs hocc h1

theorem chunkText_terminates_witness :
    chunkTextF 7 500 50 ['h', 'i', ' ', 'y', 'o', 'u']
      = chunkText 500 50 ['h', 'i', ' ', 'y', 'o', 'u'] :=
  (chunkText_terminates 500 50 ['h', 'i', ' ', 'y', 'o', 'u'] 7
    (by decide) (by decide)).1

set_option maxRecDepth 100000 in
set_option maxHeartbeats 2000000 in
/-- C2 fails as stated: at `chunk_size = 500`, `overlap = 50`, the text
`"a\n\n" ++ "x" * 951` produces a chunk of length 551 > 550, because the
oversized second paragraph is re-chunked recursively and its sub-chunks
receive an overlap prefix both in the recursive call and in the top-level
pass. -/
theorem chunk_length_bound_cex :
    ¬ ∀ c ∈ chunkText 500 50 ('a' :: '\n' :: '\n' :: List.replicate 951 'x'),
        c.length ≤ 500 + 50 := by decide

/-- C2 (amended): every chunk produced by `_chunk_text(text, chunk_size,
overlap)` has length at most `chunk_size + 5 * overlap`: the overlap pass runs
once per recursion level and the separator hierarchy bounds the recursion
depth by 5, so each chunk carries at most five overlap prefixes; the claimed
`chunk_size + overlap` bound holds only when no recursive re-chunking
occurs. -/
theorem chunk_length_bounded {cs ov : Nat} (hcs : 1 ≤ cs) (text : List Char) :
    ∀ c ∈ chunkText cs ov text, c.length ≤ cs + 5 * ov := by
  have h := chunk_bound_aux cs ov hcs text.length text le_rfl [] SEPS rfl
    (by simp)
  intro c hc
  have := h c hc
  simpa [SEPS] using this

theorem chunk_length_bounded_witness :
    1 ≤ 500 ∧ ∀ c ∈ chunkText 500 50 ['h', 'i', ' ', 'y', 'o', 'u'],
      c.length ≤ 500 + 5 * 50 :=
  ⟨by decide, chunk_length_bounded (by decide) ['h', 'i', ' ', 'y', 'o', 'u']⟩

/-- C3 fails as stated: on `"ab\n\ncd ef gh ij kl"` with `chunk_size = 10`,
`overlap = 3`, the actual `_chunk_text` differs from the spec's
overlap-exactly-once reading (`chunkTextOnce`): the recursively re-chunked
chunks receive an inner overlap prefix and then the top-level prefix again
(the last chunk comes out as "ghghij kl" instead of "ghij kl"). -/
theorem overlap_once_cex :
    chunkText 10 3
        ['a', 'b', '\n', '\n', 'c', 'd', ' ', 'e', 'f', ' ', 'g', 'h', ' ',
          'i', 'j', ' ', 'k', 'l']
      ≠ chunkTextOnce 10 3
        ['a', 'b', '\n', '\n', 'c', 'd', ' ', 'e', 'f', ' ', 'g', 'h', ' ',
          'i', 'j', ' ', 'k', 'l'] := by decide

/-- C3 (amended): the overlap pass runs at every recursion level, not only on
the top-level list — sub-chunks of an oversized chunk are prefixed inside the
recursive call and again by the enclosing pass; the spec's overlap-exactly-once
reading agrees with the code precisely on inputs where no top-level greedy
chunk exceeds `chunk_size` (no recursive re-chunking happens). -/
theorem overlap_once_no_recursion (cs ov : Nat) (text : List Char)
    (h : ∀ c ∈ topChunks cs text, c.length ≤ cs) :
    chunkText cs ov text = chunkTextOnce cs ov text := by
  rw [chunkText_def, chunkTextOnce, rawOnceF_succ]
  congr 1
  revert h
  unfold topChunks
  match htry : trySeps SEPS text with
  | some (sep, parts) =>
    intro h
    apply flatMap_congr
    intro c hc
    have hle : c.length ≤ cs := h c hc
    rw [if_neg (by omega), if_neg (by omega)]
  | none =>
    intro _
    rfl

theorem overlap_once_no_recursion_witness :
    (∀ c ∈ topChunks 10 ['h', 'i', ' ', 'y', 'o'], c.length ≤ 10) ∧
    chunkText 10 3 ['h', 'i', ' ', 'y', 'o']
      = chunkTextOnce 10 3 ['h', 'i', ' ', 'y', 'o'] :=
  ⟨by decide, overlap_once_no_recursion 10 3 ['h', 'i', ' ', 'y', 'o']
    (by decide)⟩

/-- Equality up to whitespace collapsing: two texts collapse to the same thing
exactly when their maximal whitespace-free runs coincide. -/
def wsNorm (l : List Char) : List (List Char) :=
  (l.splitOnP pyIsSpace).filter (fun w => w ≠ [])

/-- Characters that survive both whitespace collapsing and the separator
dropping of the chunker (the separator list only contains whitespace and the
full stop of `". "`). -/
def keepContent (c : Char) : Bool :=
  !(pyIsSpace c || c == '.')

/-- The whitespace-and-full-stop-free content of a text. -/
def contentOf (l : List Char) : List Char :=
  l.filter keepContent

theorem keepContent_ws {c : Char} (h : pyIsSpace c = true) :
    keepContent c = false := by
  simp [keepContent, h]

theorem filter_dropWhile {P Q : Char → Bool} (h : ∀ c, Q c = true → P c = false) :
    ∀ l : List Char, (l.dropWhile Q).filter P = l.filter P := by
  intro l
  induction l with
  | nil => rfl
  | cons c t ih =>
    by_cases hq : Q c = true
    · rw [List.dropWhile_cons_of_pos hq, ih, List.filter_cons_of_neg]
      simp [h c hq]
    · rw [List.dropWhile_cons_of_neg hq]

theorem contentOf_pyStrip (l : List Char) : contentOf (pyStrip l) = contentOf l := by
  simp only [contentOf, pyStrip]
  rw [List.filter_reverse, filter_dropWhile (fun c hc => keepContent_ws hc),
    List.filter_reverse, List.reverse_reverse,
    filter_dropWhile (fun c hc => keepContent_ws hc)]

theorem contentOf_append (a b : List Char) :
    contentOf (a ++ b) = contentOf a ++ contentOf b := by
  simp [contentOf, List.filter_append]

/-- Splitting at a separator whose characters carry no content preserves the
content: the parts jointly hold exactly the content of the text. -/
theorem splitSep_content_aux :
    ∀ (n : Nat) {sep : List Char}, contentOf sep = [] →
      ∀ (l : List Char), l.length ≤ n →
        ((splitSep sep l).map contentOf).flatten = contentOf l := by
  intro n
  induction n with
  | zero =>
    intro sep hsep l hn
    have hl : l = [] := List.length_eq_zero.1 (Nat.le_zero.1 hn)
    subst hl
    rw [splitSep_eq]
    split
    · simp
    next hs =>
      match hocc : findOcc sep ([] : List Char) with
      | none => simp
      | some i =>
        exfalso
        have := findOcc_some_le hs hocc
        have hslen : 1 ≤ sep.length := by
          cases sep with
          | nil => exact absurd rfl hs
          | cons a b => simp
        simp only [List.length_nil] at this
        omega
  | succ m ih =>
    intro sep hsep l hn
    rw [splitSep_eq]
    split
    · simp
    next hs =>
      have hslen : 1 ≤ sep.length := by
        cases sep with
        | nil => exact absurd rfl hs
        | cons a b => simp
      match hocc : findOcc sep l with
      | none => simp
      | some i =>
        have hle := findOcc_some_le hs hocc
        rcases findOcc_decomp hocc with ⟨b, hb⟩
        have htake : (l.take i).length = i := List.length_take_of_le (by omega)
        have hdropb : l.drop (i + sep.length) = b := by
          conv_lhs => rw [hb]
          have hlen2 : (l.take i ++ sep).length = i + sep.length := by
            simp [List.length_append, htake]
          rw [List.append_assoc, ← List.append_assoc]
          rw [← hlen2, List.drop_left]
        simp only [List.map_cons, List.flatten_cons]
        rw [ih hsep (l.drop (i + sep.length))
          (by simp only [List.length_drop]; omega)]
        rw [hdropb]
        conv_rhs => rw [hb]
        rw [contentOf_append, contentOf_append, hsep, List.append_nil]

theorem splitSep_content {sep : List Char} (hsep : contentOf sep = [])
    (l : List Char) : ((splitSep sep l).map contentOf).flatten = contentOf l :=
  splitSep_content_aux l.length hsep l le_rfl

/-- The greedy pass preserves content: separators between chunks are dropped,
but they carry no content. -/
theorem greedyGo_content {cs : Nat} {sep : List Char} (hsep : contentOf sep = []) :
    ∀ (parts : List (List Char)) (cur : List Char),
      ((greedyGo cs sep cur parts).map contentOf).flatten
        = contentOf cur ++ (parts.map contentOf).flatten := by
  intro parts
  induction parts with
  | nil =>
    intro cur
    by_cases hcur : cur = []
    · subst hcur; simp [greedyGo, contentOf]
    · simp [greedyGo, hcur]
  | cons part rest ih =>
    intro cur
    rw [greedyGo_cons]
    by_cases hcur : cur = []
    · subst hcur
      simp only [if_pos rfl, if_true, eq_self_iff_true]
      by_cases hbig : cs < part.length
      · rw [if_pos hbig]
        simp only [List.map_cons, List.flatten_cons]
        rw [ih []]
        simp [contentOf]
      · rw [if_neg hbig]
        rw [ih part]
        simp [contentOf]
    · simp only [if_neg hcur]
      by_cases hbig : cs < (cur ++ sep ++ part).length
      · rw [if_pos hbig]
        simp only [List.map_cons, List.flatten_cons]
        rw [ih part]
      · rw [if_neg hbig]
        rw [ih (cur ++ sep ++ part)]
        rw [contentOf_append, contentOf_append, hsep, List.append_nil]
        simp [List.append_assoc]

/-- With `overlap = 0` the final pass only strips each chunk. -/
theorem overlapPass_zero_aux (hd : Option (List Char)) (res : List (List Char)) :
    ((hd :: res.map some).zip res).map
        (fun pc => match pc with
          | (some prev, c) =>
            if 0 < (0 : Nat) then pyStrip (lastTake 0 prev ++ c) else pyStrip c
          | (none, c) => pyStrip c)
      = res.map pyStrip := by
  induction res generalizing hd with
  | nil => rfl
  | cons c t ih =>
    simp only [List.map_cons, List.zip_cons_cons]
    rw [ih (some c)]
    rcases hd with _ | prev <;> simp

theorem overlapPass_zero (res : List (List Char)) :
    overlapPass 0 res = res.map pyStrip := by
  unfold overlapPass withPrev
  exact overlapPass_zero_aux none res

theorem hardSlice_flatten_aux :
    ∀ (n cs : Nat) (l : List Char), l.length ≤ n → cs ≠ 0 →
      (hardSlice cs l).flatten = l := by
  intro n
  induction n with
  | zero =>
    intro cs l hn hcs
    have hl : l = [] := List.length_eq_zero.1 (Nat.le_zero.1 hn)
    subst hl
    rw [hardSlice_eq]
    simp
  | succ m ih =>
    intro cs l hn hcs
    rw [hardSlice_eq]
    by_cases hl : l = []
    · simp [hl]
    · rw [if_neg hl, if_neg hcs]
      simp only [List.flatten_cons]
      have hlen : 0 < l.length := List.length_pos.2 hl
      rw [ih cs (l.drop cs) (by simp only [List.length_drop]; omega) hcs]
      exact List.take_append_drop cs l

theorem hardSlice_flatten {cs : Nat} (hcs : cs ≠ 0) (l : List Char) :
    (hardSlice cs l).flatten = l :=
  hardSlice_flatten_aux l.length cs l le_rfl hcs

theorem SEPS_contentOf : ∀ s ∈ SEPS, contentOf s = [] := by decide

theorem contentOf_flatten (L : List (List Char)) :
    contentOf L.flatten = (L.map contentOf).flatten := by
  simp only [contentOf]
  rw [List.filter_flatten]
  congr 1

theorem greedy_eq (cs : Nat) (sep : List Char) (parts : List (List Char)) :
    greedy cs sep parts = greedyGo cs sep [] parts := rfl

theorem flatten_map_flatMap {f : List Char → List (List Char)}
    {chunks : List (List Char)}
    (h : ∀ c ∈ chunks, ((f c).map contentOf).flatten = contentOf c) :
    ((chunks.flatMap f).map contentOf).flatten = (chunks.map contentOf).flatten := by
  induction chunks with
  | nil => rfl
  | cons c rest ih =>
    simp only [List.flatMap_cons, List.map_append, List.flatten_append,
      List.map_cons, List.flatten_cons]
    rw [h c (List.mem_cons_self _ _), ih fun d hd => h d (List.mem_cons_of_mem _ hd)]

/-- Unfolding equation for the pre-overlap list. -/
theorem rawChunks_def (cs ov : Nat) (text : List Char) :
    rawChunks cs ov text =
      match trySeps SEPS text with
      | some (sep, parts) =>
        (greedy cs sep parts).flatMap fun c =>
          if cs < c.length then chunkTextF (c.length + 1) cs ov c else [c]
      | none => hardSlice cs text := rfl

/-- Content preservation of the chunker without overlap: the chunks jointly
hold exactly the whitespace-and-full-stop-free content of the text. -/
theorem rawChunks_content_aux (cs : Nat) (hcs : 1 ≤ cs) :
    ∀ (n : Nat) (text : List Char), text.length ≤ n →
      ((rawChunks cs 0 text).map contentOf).flatten = contentOf text := by
  intro n
  induction n with
  | zero =>
    intro text hn
    have hl : text = [] := List.length_eq_zero.1 (Nat.le_zero.1 hn)
    subst hl
    rw [rawChunks_def]
    match htry : trySeps SEPS ([] : List Char) with
    | some (sep, parts) =>
      exfalso
      rcases trySeps_some htry with ⟨hmem, rfl, hne⟩
      rcases splitSep_length_ne_one hne with ⟨hs, i, hocc⟩
      have := findOcc_some_le hs hocc
      have hslen : 1 ≤ sep.length := by
        cases sep with
        | nil => exact absurd rfl hs
        | cons a b => simp
      simp only [List.length_nil] at this
      omega
    | none =>
      show (List.map contentOf (hardSlice cs [])).flatten = contentOf []
      rw [← contentOf_flatten, hardSlice_flatten (by omega)]
  | succ m ih =>
    intro text hn
    rw [rawChunks_def]
    match htry : trySeps SEPS text with
    | none =>
      show (List.map contentOf (hardSlice cs text)).flatten = contentOf text
      rw [← contentOf_flatten, hardSlice_flatten (by omega)]
    | some (sep, parts) =>
      rcases trySeps_some htry with ⟨hmem, hparts, hne⟩
      have hsep : contentOf sep = [] := SEPS_contentOf sep hmem
      have hlt := trySeps_some_lt htry
      rw [flatten_map_flatMap ?h]
      case h =>
        intro c hc
        by_cases hbig : cs < c.length
        · rw [if_pos hbig]
          have hstable : chunkTextF (c.length + 1) cs 0 c = chunkText cs 0 c :=
            chunkTextF_stable (Nat.lt_succ_self _)
          rw [hstable, chunkText, overlapPass_zero, List.map_map]
          have hmapeq : (rawChunks cs 0 c).map (contentOf ∘ pyStrip)
              = (rawChunks cs 0 c).map contentOf :=
            List.map_eq_map_iff.mpr fun x _ => contentOf_pyStrip x
          rw [hmapeq]
          have hchlt : c.length < text.length := by
            rcases greedyGo_mem hc with h1 | h1 | h1
            · omega
            · subst h1; simp at hbig
            · exact hlt c h1
          exact ih c (by omega)
        · rw [if_neg hbig]
          simp
      rw [greedy_eq, greedyGo_content hsep parts []]
      rw [hparts, splitSep_content hsep]
      simp [contentOf]

set_option maxRecDepth 100000 in
set_option maxHeartbeats 2000000 in
/-- C7 fails as stated: for the cleaned page text `"x"*300 ++ ". " ++ "x"*300`
(at the pipeline's `chunk_size = 500`, `overlap = 50`), the pre-overlap chunks
concatenate to `"x"*600` — the `". "` sentence separator between the two
chunks is dropped entirely, so the text is not reconstructed even up to
whitespace collapsing (the `'.'` is lost). -/
theorem chunk_roundtrip_cex :
    wsNorm ((rawChunks 500 50
        (List.replicate 300 'x' ++ '.' :: ' ' :: List.replicate 300 'x')).flatten)
      ≠ wsNorm (List.replicate 300 'x' ++ '.' :: ' ' :: List.replicate 300 'x') := by
  decide

/-- C7 (amended): concatenating the chunks produced with the overlap prefixes
stripped back out (overlap = 0) reconstructs the cleaned source text up to
whitespace collapsing *and up to the loss of the `'.'` characters of the
`". "` separators dropped at chunk boundaries*: the whitespace-and-full-stop-
free content is preserved exactly. -/
theorem chunk_roundtrip_content {cs : Nat} (hcs : 1 ≤ cs) (text : List Char) :
    contentOf ((chunkText cs 0 text).flatten) = contentOf text := by
  rw [chunkText, overlapPass_zero, contentOf_flatten, List.map_map]
  have hmapeq : (rawChunks cs 0 text).map (contentOf ∘ pyStrip)
      = (rawChunks cs 0 text).map contentOf :=
    List.map_eq_map_iff.mpr fun x _ => contentOf_pyStrip x
  rw [hmapeq]
  exact rawChunks_content_aux cs hcs text.length text le_rfl

theorem chunk_roundtrip_content_witness :
    1 ≤ 10 ∧ contentOf ((chunkText 10 0 ['h', 'i', ' ', 'y', 'o', 'u']).flatten)
      = contentOf ['h', 'i', ' ', 'y', 'o', 'u'] :=
  ⟨by decide, chunk_roundtrip_content (by decide) ['h', 'i', ' ', 'y', 'o', 'u']⟩

/-!
Reranking (`RerankService.rerank`, rerank.py lines 32-70).  The HTTP call is
modelled by its observable outcome: a transport exception, or a response with
a status code and a body whose JSON parse either fails, is not a list, or is a
list of scores (JSON numbers, modelled as integers — only their order is
used).  Every exception path of the source is a caught branch here, so the
embedding is total: `rerank` never raises.
-/

/-- A candidate document as the reranker sees it: its text and the `score`
key, absent until the success path assigns it. -/
structure RDoc where
  text : List Char
  score : Option Int
deriving DecidableEq, Repr

/-- Outcome of `response.json()` on a 200 response. -/
inductive ParseResult where
  | unparseable
  | notList
  | scores (s : List Int)
deriving DecidableEq, Repr

/-- Observable outcome of the scoring request. -/
inductive RerankOutcome where
  | exn
  | status (code : Nat) (body : ParseResult)
deriving DecidableEq, Repr

/-- The sort key `d["score"]` used by the success path; at that point every
document has just been assigned a score, so the default is never consulted. -/
def rerankScoreKey (d : RDoc) : Int :=
  d.score.getD 0

/-- `RerankService.rerank(query, documents, top_k)`.  Python's `sorted` with
`reverse=True` is a stable descending sort, modelled by `mergeSort` with the
reflexive descending comparison. -/
def rerank (outcome : RerankOutcome) (documents : List RDoc) (top_k : Nat) :
    List RDoc :=
  if documents = [] then []
  else
    match outcome with
    | .exn => documents.take top_k
    | .status code body =>
      if code ≠ 200 then documents.take top_k
      else
        match body with
        | .unparseable => documents.take top_k
        | .notList => documents.take top_k
        | .scores s =>
          if s.length ≠ documents.length then documents.take top_k
          else
            let scored := List.zipWith
              (fun d sc => { d with score := some sc }) documents s
            (scored.mergeSort
              (fun a b => decide (rerankScoreKey b ≤ rerankScoreKey a))).take top_k

/-- C1: `rerank` never raises; on every failure path — transport exception,
non-200 status, unparseable body, non-list body, or score-array length
mismatch — it returns exactly the first `min(top_k, len(documents))` input
documents in original order; on scoring success it returns exactly
`min(top_k, len(documents))` documents sorted by descending assigned score;
and empty input yields empty output. -/
theorem rerank_contract (documents : List RDoc) (top_k : Nat) :
    (rerank .exn documents top_k = documents.take top_k) ∧
    (∀ code body, code ≠ 200 →
      rerank (.status code body) documents top_k = documents.take top_k) ∧
    (rerank (.status 200 .unparseable) documents top_k = documents.take top_k) ∧
    (rerank (.status 200 .notList) documents top_k = documents.take top_k) ∧
    (∀ s : List Int, s.length ≠ documents.length →
      rerank (.status 200 (.scores s)) documents top_k = documents.take top_k) ∧
    (∀ s : List Int, s.length = documents.length →
      (rerank (.status 200 (.scores s)) documents top_k).length
          = min top_k documents.length ∧
      (rerank (.status 200 (.scores s)) documents top_k).Pairwise
        (fun a b => rerankScoreKey b ≤ rerankScoreKey a)) ∧
    (∀ outcome, rerank outcome [] top_k = []) := by
  refine ⟨?_, ?_, ?_, ?_, ?_, ?_, ?_⟩
  · by_cases h : documents = [] <;> simp [rerank, h]
  · intro code body hcode
    by_cases h : documents = [] <;> simp [rerank, h, hcode]
  · by_cases h : documents = [] <;> simp [rerank, h]
  · by_cases h : documents = [] <;> simp [rerank, h]
  · intro s hs
    by_cases h : documents = [] <;> simp [rerank, h, hs]
  · intro s hs
    by_cases h : documents = []
    · subst h
      have hs0 : s = [] := List.length_eq_zero.1 (by simpa using hs)
      subst hs0
      constructor <;> simp [rerank]
    · have hred : rerank (.status 200 (.scores s)) documents top_k
          = ((List.zipWith (fun d sc => { d with score := some sc }) documents s).mergeSort
              (fun a b => decide (rerankScoreKey b ≤ rerankScoreKey a))).take top_k := by
        simp [rerank, h, hs]
      constructor
      · rw [hred]
        rw [List.length_take]
        congr 1
        rw [(List.mergeSort_perm _ _).length_eq]
        rw [List.length_zipWith, hs, Nat.min_self]
      · rw [hred]
        refine List.Pairwise.sublist (List.take_sublist _ _) ?_
        have hsorted := @List.sorted_mergeSort RDoc
          (fun a b => decide (rerankScoreKey b ≤ rerankScoreKey a))
          (fun a b c hab hbc => by
            simp only [decide_eq_true_eq] at *
            exact le_trans hbc hab)
          (fun a b => by
            simp only [Bool.or_eq_true, decide_eq_true_eq]
            exact le_total (rerankScoreKey b) (rerankScoreKey a))
          (List.zipWith (fun d sc => { d with score := some sc }) documents s)
        exact hsorted.imp fun hab => by simpa using hab
  · intro outcome
    simp [rerank]

theorem rerank_contract_witness :
    (([3, 7] : List Int).length
        = ([⟨['a'], none⟩, ⟨['b'], none⟩] : List RDoc).length) ∧
    (rerank (.status 200 (.scores [3, 7])) [⟨['a'], none⟩, ⟨['b'], none⟩] 5).length
        = min 5 2 ∧
    (rerank (.status 200 (.scores [3, 7])) [⟨['a'], none⟩, ⟨['b'], none⟩] 5).Pairwise
      (fun a b => rerankScoreKey b ≤ rerankScoreKey a) := by
  refine ⟨by decide, ?_⟩
  have h := (rerank_contract [⟨['a'], none⟩, ⟨['b'], none⟩] 5).2.2.2.2.2.1
    [3, 7] (by decide)
  exact h

/-!
Multi-provider answer generation (`LLMService`, llm.py).  A model call is
modelled by its observable outcome (`exn` for a raised exception, `ok s` for a
completed call whose content after `or ""` is `s`); the environment-dependent
configuration (default provider, explicit model, which API keys are present)
is a record.  `llm_model = ""` models the falsy/unset environment variable.
-/

inductive CallResult where
  | exn
  | ok (content : String)
deriving DecidableEq, Repr

structure LLMConfig where
  llm_provider : String
  llm_model : String
  hasGroq : Bool
  hasOpenai : Bool
  hasHf : Bool
deriving DecidableEq, Repr

def LLM_PROVIDERS : List String := ["groq", "openai", "hf", "local"]

def GROQ_MODELS : List String := ["mixtral-8x7b-32768", "llama2-70b-4096"]

def OPENAI_MODELS : List String := ["gpt-4-1106-preview", "gpt-3.5-turbo"]

def HF_CHAT_MODELS : List String :=
  ["meta-llama/Llama-2-70b-chat-hf", "HuggingFaceH4/zephyr-7b-beta"]

def HF_TEXT_MODELS : List String := ["mistralai/Mistral-7B-Instruct-v0.3"]

def LOCAL_MODELS : List String := []

/-- The per-provider model loop shared by `_try_groq`, `_try_openai` and
`_try_hf`: skip falsy model names, return the content of the first call that
completes without an exception (even when that content is empty), `None` when
every candidate raised. -/
def loopModels (calls : String → String → CallResult) (provider : String) :
    List String → Option String
  | [] => none
  | m :: rest =>
    if m = "" then loopModels calls provider rest
    else
      match calls provider m with
      | .exn => loopModels calls provider rest
      | .ok s => some s

/-- `[self.llm_model] if self.llm_model else defaults`. -/
def modelsFor (cfg : LLMConfig) (defaults : List String) : List String :=
  if cfg.llm_model ≠ "" then [cfg.llm_model] else defaults

/-- `_try_groq` (llm.py lines 60-84): `None` without a configured client. -/
def tryGroq (cfg : LLMConfig) (calls : String → String → CallResult) :
    Option String :=
  if !cfg.hasGroq then none
  else loopModels calls "groq" (modelsFor cfg GROQ_MODELS)

/-- `_try_openai` (lines 86-106). -/
def tryOpenai (cfg : LLMConfig) (calls : String → String → CallResult) :
    Option String :=
  if !cfg.hasOpenai then none
  else loopModels calls "openai" (modelsFor cfg OPENAI_MODELS)

/-- `_try_hf` (lines 108-137); chat and text models share the one loop. -/
def tryHf (cfg : LLMConfig) (calls : String → String → CallResult) :
    Option String :=
  if !cfg.hasHf then none
  else loopModels calls "hf" (modelsFor cfg (HF_CHAT_MODELS ++ HF_TEXT_MODELS))

/-- `_try_local` (lines 139-142): no local integration, always `None`. -/
def tryLocal : Option String := none

/-- The per-provider dispatch of `generate_answer` (lines 161-170); an unknown
provider name is skipped (`continue`). -/
def attempt (cfg : LLMConfig) (calls : String → String → CallResult)
    (provider : String) : Option String :=
  if provider = "groq" then tryGroq cfg calls
  else if provider = "openai" then tryOpenai cfg calls
  else if provider = "hf" then tryHf cfg calls
  else if provider = "local" then tryLocal
  else none

structure Answer where
  answer : Option String
  error : Option String
  fallback_used : Bool
deriving DecidableEq, Repr

/-- The provider priority order of `generate_answer` (line 160): the
configured default first, then the remaining providers in their fixed relative
order, deduplicated. -/
def providerOrder (cfg : LLMConfig) : List String :=
  cfg.llm_provider :: LLM_PROVIDERS.filter (fun p => p ≠ cfg.llm_provider)

/-- The provider loop of `generate_answer` (lines 160-174): the first truthy
(non-`None`, non-empty) answer wins; exhaustion yields the structured failure
record. -/
def genLoop (cfg : LLMConfig) (calls : String → String → CallResult) :
    List String → Answer
  | [] => ⟨none, some "All LLM providers failed.", true⟩
  | p :: rest =>
    match attempt cfg calls p with
    | some s =>
      if s ≠ "" then ⟨some s, none, decide (p ≠ cfg.llm_provider)⟩
      else genLoop cfg calls rest
    | none => genLoop cfg calls rest

/-- `LLMService.generate_answer(question, context)` (lines 157-174). -/
def generate_answer (cfg : LLMConfig) (calls : String → String → CallResult) :
    Answer :=
  genLoop cfg calls (providerOrder cfg)

/-- Spec-modelled (the reading asserted by claim C4): the flattened
provider/model priority list. -/
def priorityPairs (cfg : LLMConfig) : List (String × String) :=
  (providerOrder cfg).flatMap fun p =>
    (if p = "groq" then modelsFor cfg GROQ_MODELS
     else if p = "openai" then modelsFor cfg OPENAI_MODELS
     else if p = "hf" then modelsFor cfg (HF_CHAT_MODELS ++ HF_TEXT_MODELS)
     else if p = "local" then modelsFor cfg LOCAL_MODELS
     else []).map fun m => (p, m)

/-- Spec-modelled (claim C4's reading): the first provider/model call in
priority order that yields a non-empty response. -/
def firstNonEmpty (cfg : LLMConfig) (calls : String → String → CallResult) :
    Option (String × String) :=
  (priorityPairs cfg).find? fun pm =>
    match calls pm.1 pm.2 with
    | .ok s => decide (s ≠ "")
    | .exn => false

/-- Configuration used by the concrete scenarios: default provider `groq`, no
explicit model, every API key configured. -/
def cfgGroqDefault : LLMConfig :=
  ⟨"groq", "", true, true, true⟩

/-- Concrete call outcomes for the C4 counterexample: groq's first model
succeeds with an empty response, its second would give "X", openai's first
gives "Y". -/
def cexCalls : String → String → CallResult := fun p m =>
  if p = "groq" && m = "mixtral-8x7b-32768" then .ok ""
  else if p = "groq" && m = "llama2-70b-4096" then .ok "X"
  else if p = "openai" && m = "gpt-4-1106-preview" then .ok "Y"
  else .exn

/-- C4 fails as stated: the first provider/model call in priority order with a
non-empty response is groq's second model (answer "X"), but the code returns
openai's "Y" — a successful-but-empty model call ends that provider's model
iteration, so later models of the same provider are never tried. -/
theorem generate_answer_cex :
    firstNonEmpty cfgGroqDefault cexCalls = some ("groq", "llama2-70b-4096") ∧
    cexCalls "groq" "llama2-70b-4096" = .ok "X" ∧
    (generate_answer cfgGroqDefault cexCalls).answer = some "Y" := by decide

/-- The provider loop returns the first provider whose attempt is truthy. -/
theorem genLoop_first {cfg : LLMConfig} {calls : String → String → CallResult} :
    ∀ (l₁ : List String) (p : String) (l₂ : List String) (s : String),
      (∀ q ∈ l₁, attempt cfg calls q = none ∨ attempt cfg calls q = some "") →
      attempt cfg calls p = some s → s ≠ "" →
      genLoop cfg calls (l₁ ++ p :: l₂)
        = ⟨some s, none, decide (p ≠ cfg.llm_provider)⟩ := by
  intro l₁
  induction l₁ with
  | nil =>
    intro p l₂ s hfail hp hne
    simp only [List.nil_append, genLoop, hp]
    rw [if_pos hne]
  | cons q l₁ ih =>
    intro p l₂ s hfail hp hne
    have hq := hfail q (List.mem_cons_self _ _)
    have hrest : ∀ r ∈ l₁, attempt cfg calls r = none ∨ attempt cfg calls r = some "" :=
      fun r hr => hfail r (List.mem_cons_of_mem _ hr)
    rcases hq with hq | hq
    · simp only [List.cons_append, genLoop, hq]
      exact ih p l₂ s hrest hp hne
    · simp only [List.cons_append, genLoop, hq]
      rw [if_neg (by simp)]
      exact ih p l₂ s hrest hp hne

/-- The provider loop yields the structured failure on exhaustion. -/
theorem genLoop_exhausted {cfg : LLMConfig} {calls : String → String → CallResult} :
    ∀ (l : List String),
      (∀ q ∈ l, attempt cfg calls q = none ∨ attempt cfg calls q = some "") →
      genLoop cfg calls l = ⟨none, some "All LLM providers failed.", true⟩ := by
  intro l
  induction l with
  | nil => intro _; rfl
  | cons q l ih =>
    intro hfail
    have hq := hfail q (List.mem_cons_self _ _)
    have hrest := fun r hr => hfail r (List.mem_cons_of_mem _ hr)
    rcases hq with hq | hq
    · simp only [genLoop, hq]
      exact ih hrest
    · simp only [genLoop, hq]
      rw [if_neg (by simp)]
      exact ih hrest

/-- C4 (amended): `generate_answer` tries the configured default provider
first and the remaining providers in fixed relative order (deduplicated);
within a provider, model iteration ends at the first call that completes
without an exception, even when its response is empty; the call returns the
response of the first provider in priority order whose attempt yields a
non-empty response, trying no further providers after that. -/
theorem generate_answer_first_provider (cfg : LLMConfig)
    (calls : String → String → CallResult) (l₁ : List String) (p : String)
    (l₂ : List String) (s : String)
    (horder : providerOrder cfg = l₁ ++ p :: l₂)
    (hfail : ∀ q ∈ l₁, attempt cfg calls q = none ∨ attempt cfg calls q = some "")
    (hp : attempt cfg calls p = some s) (hne : s ≠ "") :
    generate_answer cfg calls = ⟨some s, none, decide (p ≠ cfg.llm_provider)⟩ := by
  rw [generate_answer, horder]
  exact genLoop_first l₁ p l₂ s hfail hp hne

/-- Concrete calls for the C4 witness: groq raises on both models, openai's
first model answers "Z". -/
def wCalls : String → String → CallResult := fun p m =>
  if p = "openai" && m = "gpt-4-1106-preview" then .ok "Z" else .exn

theorem generate_answer_first_provider_witness :
    (∀ q ∈ ["groq"], attempt cfgGroqDefault wCalls q = none ∨
      attempt cfgGroqDefault wCalls q = some "") ∧
    generate_answer cfgGroqDefault wCalls
      = ⟨some "Z", none, decide ("openai" ≠ cfgGroqDefault.llm_provider)⟩ :=
  ⟨by decide,
    generate_answer_first_provider cfgGroqDefault wCalls ["groq"] "openai"
      ["hf", "local"] "Z" (by decide) (by decide) (by decide) (by decide)⟩

theorem loopModels_all_empty {calls : String → String → CallResult} {p : String}
    (h : ∀ m, calls p m = .exn ∨ calls p m = .ok "") :
    ∀ models, loopModels calls p models = none ∨ loopModels calls p models = some "" := by
  intro models
  induction models with
  | nil => exact Or.inl rfl
  | cons m rest ih =>
    by_cases hm : m = ""
    · simp only [loopModels, if_pos hm]
      exact ih
    · simp only [loopModels, if_neg hm]
      rcases h m with hc | hc
      · rw [hc]; exact ih
      · rw [hc]; exact Or.inr rfl

theorem attempt_all_empty {cfg : LLMConfig} {calls : String → String → CallResult}
    (h : ∀ p m, calls p m = .exn ∨ calls p m = .ok "") (p : String) :
    attempt cfg calls p = none ∨ attempt cfg calls p = some "" := by
  unfold attempt tryGroq tryOpenai tryHf tryLocal
  split
  · split
    · exact Or.inl rfl
    · exact loopModels_all_empty (h "groq") _
  split
  · split
    · exact Or.inl rfl
    · exact loopModels_all_empty (h "openai") _
  split
  · split
    · exact Or.inl rfl
    · exact loopModels_all_empty (h "hf") _
  split
  · exact Or.inl rfl
  · exact Or.inl rfl

/-- C5: when every provider/model call fails or returns an empty response,
`generate_answer` returns (without raising) the structured record with a
non-null error, null answer text and `fallback_used = true`; and in the
success case `fallback_used` is true exactly when the winning provider differs
from the configured default. -/
theorem generate_answer_failure_record (cfg : LLMConfig)
    (calls : String → String → CallResult) :
    ((∀ p m, calls p m = .exn ∨ calls p m = .ok "") →
      generate_answer cfg calls
        = ⟨none, some "All LLM providers failed.", true⟩) ∧
    (∀ (l₁ : List String) (p : String) (l₂ : List String) (s : String),
      providerOrder cfg = l₁ ++ p :: l₂ →
      (∀ q ∈ l₁, attempt cfg calls q = none ∨ attempt cfg calls q = some "") →
      attempt cfg calls p = some s → s ≠ "" →
      (generate_answer cfg calls).error = none ∧
      ((generate_answer cfg calls).fallback_used
        = decide (p ≠ cfg.llm_provider))) := by
  constructor
  · intro h
    rw [generate_answer]
    exact genLoop_exhausted _ fun q _ => attempt_all_empty h q
  · intro l₁ p l₂ s horder hfail hp hne
    have := genLoop_first l₁ p l₂ s hfail hp hne
    rw [generate_answer, horder, this]
    exact ⟨rfl, rfl⟩

/-- Calls for the C5 witness: every provider/model raises. -/
def allFailCalls : String → String → CallResult := fun _ _ => CallResult.exn

theorem generate_answer_failure_record_witness :
    generate_answer cfgGroqDefault allFailCalls
      = ⟨none, some "All LLM providers failed.", true⟩ :=
  (generate_answer_failure_record cfgGroqDefault allFailCalls).1
    fun _ _ => Or.inl rfl

/-!
PDF ingestion (`process_pdf`, ingestion.py lines 62-119) and vector upsert
(`VectorService.upsert_chunks`, vector.py lines 65-109).  A parsed PDF is
modelled by its per-page extracted texts (an extraction failure or a `None`
return is the empty text, exactly as in the source); the external embedding
and index calls always succeed in this model (their failures propagate in the
source and are out of scope of these claims), so `upsert_chunks` returns the
stored records, whose count is the source's return value.
-/

/-- The `metadata` object of a chunk record. -/
structure Meta where
  text : List Char
  filename : String
  page_number : Nat
  chunk_index : Nat
deriving DecidableEq, Repr

/-- A chunk record as passed to `upsert_chunks`: the top-level `filename` key
is `none` when absent — records built by `process_pdf` never set it. -/
structure ChunkRec where
  id : String
  text : List Char
  filename : Option String
  metadata : Meta
deriving DecidableEq, Repr

/-- Removal of hyphenated line breaks: `text.replace("-\n", "")`. -/
def removeDashNl : List Char → List Char
  | '-' :: '\n' :: t => removeDashNl t
  | c :: t => c :: removeDashNl t
  | [] => []

/-- Collapsing of whitespace runs to a single space (`re.sub(r"\s+", " ")`),
with the previous-character state made explicit. -/
def collapseWsGo (prevSpace : Bool) : List Char → List Char
  | [] => []
  | c :: t =>
    if pyIsSpace c then
      if prevSpace then collapseWsGo true t else ' ' :: collapseWsGo true t
    else c :: collapseWsGo false t

def collapseWs (l : List Char) : List Char :=
  collapseWsGo false l

/-- The per-page pipeline of `process_pdf` (lines 75-97): strip, skip empty
pages, fix hyphenated line breaks, turn newlines into spaces, collapse
whitespace runs, strip again, skip pages left empty by cleaning. -/
def processPage (raw : List Char) : Option (List Char) :=
  let t0 := pyStrip raw
  if t0 = [] then none
  else
    let t1 := removeDashNl t0
    let t2 := t1.map fun c => if c = '\n' then ' ' else c
    let t3 := pyStrip (collapseWs t2)
    if t3 = [] then none else some t3

/-- The non-empty cleaned pages with their 1-based page numbers. -/
def cleanedPages (pages : List (List Char)) : List (Nat × List Char) :=
  pages.enum.filterMap fun pr => (processPage pr.2).map fun t => (pr.1 + 1, t)

/-- `all_text`: the concatenation (without separator) of the cleaned pages. -/
def totalCleanedText (pages : List (List Char)) : List Char :=
  ((cleanedPages pages).map Prod.snd).flatten

/-- The records assembled for one page (lines 104-114): per-page chunk index,
id `"{filename}_chunk_{idx}"`, and the metadata object; no top-level
`filename` key is set. -/
def pageRecords (filename : String) (pageNo : Nat) (text : List Char) :
    List ChunkRec :=
  (chunkText 500 50 text).enum.map fun pr =>
    ⟨filename ++ "_chunk_" ++ toString pr.1, pr.2, none,
      ⟨pr.2, filename, pageNo, pr.1⟩⟩

/-- The full assembled document list of `process_pdf`. -/
def assembledDocs (filename : String) (pages : List (List Char)) :
    List ChunkRec :=
  (cleanedPages pages).flatMap fun pr => pageRecords filename pr.1 pr.2

/-- `process_pdf(file_bytes, filename)` on a parseable PDF: `ValueError` (the
`.error` case) exactly when the total cleaned text is shorter than 10
characters. -/
def process_pdf (filename : String) (pages : List (List Char)) :
    Except String (List ChunkRec) :=
  if (pyStrip (totalCleanedText pages)).length < 10 then
    .error "This PDF appears to be empty or scanned. No text could be extracted."
  else .ok (assembledDocs filename pages)

/-- The HTTP outcome of the upload route. -/
inductive UploadResult where
  | badRequest (msg : String)
  | unavailable
  | success (filename : String) (nchunks : Nat)
deriving Repr

/-- `upload_document` (upload.py lines 22-54): the extension check is the
boolean `isPdfName` (routing-layer detail), a `ValueError` from `process_pdf`
becomes a 400 with the error's message, an empty chunk list a 400, an upsert
failure a 503, and success reports the chunk count. -/
def upload_document (filename : String) (isPdfName : Bool)
    (pages : List (List Char)) (upsertOk : Bool) : UploadResult :=
  if !isPdfName then .badRequest "Only PDF files are supported."
  else
    match process_pdf filename pages with
    | .error e => .badRequest e
    | .ok chunks =>
      if chunks = [] then
        .badRequest "The PDF appears to be empty or image-only. Use a text-based PDF."
      else if !upsertOk then .unavailable
      else .success filename chunks.length

/-- The filter pass of `upsert_chunks` (lines 71-76): drop chunks whose text
is empty or whitespace-only. -/
def validChunks (chunks : List ChunkRec) : List ChunkRec :=
  chunks.filter fun c => decide (pyStrip c.text ≠ [])

/-- The id re-assignment of `upsert_chunks` (lines 80-83):
`chunk.get("filename", "file") + "_chunk_" + str(i)` over the valid chunks in
upsert order. -/
def assignIds (chunks : List ChunkRec) : List ChunkRec :=
  chunks.enum.map fun pr =>
    { pr.2 with id := pr.2.filename.getD "file" ++ "_chunk_" ++ toString pr.1 }

/-- `upsert_chunks(chunks_data)`: raises (the `.error` case) when no chunk has
non-whitespace text, otherwise stores one vector per valid chunk; the stored
records are returned, and the source's return value is their count. -/
def upsert_chunks (chunks_data : List ChunkRec) : Except String (List ChunkRec) :=
  let valid := validChunks chunks_data
  if valid = [] then .error "No valid text chunks to upload."
  else .ok (assignIds valid)

/-- C8: `process_pdf` raises a `ValueError` exactly when the total
extracted-and-cleaned text across all pages is shorter than 10 characters, and
the upload endpoint surfaces it as a 400 with the same message; with at least
10 characters it returns the assembled chunk records without raising. -/
theorem process_pdf_validation (filename : String) (pages : List (List Char))
    (upsertOk : Bool) :
    ((pyStrip (totalCleanedText pages)).length < 10 →
      process_pdf filename pages
        = .error "This PDF appears to be empty or scanned. No text could be extracted." ∧
      upload_document filename true pages upsertOk
        = .badRequest "This PDF appears to be empty or scanned. No text could be extracted.") ∧
    (10 ≤ (pyStrip (totalCleanedText pages)).length →
      process_pdf filename pages = .ok (assembledDocs filename pages)) := by
  constructor
  · intro hlt
    have hp : process_pdf filename pages
        = .error "This PDF appears to be empty or scanned. No text could be extracted." := by
      rw [process_pdf, if_pos hlt]
    refine ⟨hp, ?_⟩
    rw [upload_document]
    simp only [Bool.not_true, hp]
    rfl
  · intro hge
    rw [process_pdf, if_neg (by omega)]

theorem process_pdf_validation_witness :
    (pyStrip (totalCleanedText [['h', 'i']])).length < 10 ∧
    upload_document "doc.pdf" true [['h', 'i']] true
      = .badRequest "This PDF appears to be empty or scanned. No text could be extracted." :=
  ⟨by decide,
    ((process_pdf_validation "doc.pdf" [['h', 'i']] true).1 (by decide)).2⟩

/-- Concrete single-page upload used to exhibit the id bug. -/
def bugPages : List (List Char) :=
  [['h', 'e', 'l', 'l', 'o', ' ', 'w', 'o', 'r', 'l', 'd']]

def bugDocs : List ChunkRec :=
  assembledDocs "report.pdf" bugPages

/-- C6 is what the code intends but not what it does: the records assembled by
`process_pdf` for `"report.pdf"` carry the id `"report.pdf_chunk_0"` and no
top-level `filename` key, so `upsert_chunks` — which reads
`chunk.get("filename", "file")` — re-assigns the id to the literal
`"file_chunk_0"` instead of `"report.pdf_chunk_0"`. -/
theorem upsert_id_bug :
    bugDocs.map ChunkRec.id = ["report.pdf_chunk_0"] ∧
    (∀ r ∈ bugDocs, r.filename = none) ∧
    upsert_chunks bugDocs = .ok (assignIds bugDocs) ∧
    (assignIds bugDocs).map ChunkRec.id = ["file_chunk_0"] :=
  ⟨by decide, by decide, rfl, by decide⟩

/-- C10: `upsert_chunks` skips every chunk whose text is empty or
whitespace-only, raises `ValueError` when no input chunk has non-whitespace
text, and otherwise stores exactly one vector per non-whitespace chunk (the
returned count is the length of the stored list). -/
theorem upsert_chunks_contract (chunks : List ChunkRec) :
    ((∀ c ∈ chunks, pyStrip c.text = []) →
      upsert_chunks chunks = .error "No valid text chunks to upload.") ∧
    ((∃ c ∈ chunks, pyStrip c.text ≠ []) →
      upsert_chunks chunks = .ok (assignIds (validChunks chunks)) ∧
      (assignIds (validChunks chunks)).length
        = (chunks.filter fun c => decide (pyStrip c.text ≠ [])).length) := by
  constructor
  · intro hall
    have hnil : validChunks chunks = [] := by
      rw [validChunks, List.filter_eq_nil_iff]
      intro c hc
      simp [hall c hc]
    rw [upsert_chunks]
    simp only [hnil]
    rfl
  · intro hex
    rcases hex with ⟨c, hc, hne⟩
    have hmem : c ∈ validChunks chunks := by
      rw [validChunks, List.mem_filter]
      exact ⟨hc, by simpa using hne⟩
    have hnnil : validChunks chunks ≠ [] := List.ne_nil_of_mem hmem
    constructor
    · rw [upsert_chunks]
      simp only [if_neg hnnil]
    · rw [assignIds, List.length_map, List.enum_length]
      rfl

theorem upsert_chunks_contract_witness :
    (∃ c ∈ [(⟨"a", ['h', 'i'], none, ⟨['h', 'i'], "f", 1, 0⟩⟩ : ChunkRec),
        ⟨"b", [' '], none, ⟨[' '], "f", 1, 1⟩⟩], pyStrip c.text ≠ []) ∧
    upsert_chunks [⟨"a", ['h', 'i'], none, ⟨['h', 'i'], "f", 1, 0⟩⟩,
        ⟨"b", [' '], none, ⟨[' '], "f", 1, 1⟩⟩]
      = .ok (assignIds (validChunks
          [⟨"a", ['h', 'i'], none, ⟨['h', 'i'], "f", 1, 0⟩⟩,
            ⟨"b", [' '], none, ⟨[' '], "f", 1, 1⟩⟩])) :=
  ⟨by decide,
    ((upsert_chunks_contract [⟨"a", ['h', 'i'], none, ⟨['h', 'i'], "f", 1, 0⟩⟩,
        ⟨"b", [' '], none, ⟨[' '], "f", 1, 1⟩⟩]).2 (by decide)).1⟩

end DocSearch
